import Mathlib

/-!
Verification of the `s3lib` path adapter (`src/s3lib/core.py`).

`S3Path` extends `pathlib.PosixPath`; a path is therefore the pathlib-normalized
list of string parts.  Every string operation of the source is embedded at the
character level (`List Char`), and every storage operation is embedded against
an explicit store (a list of bucket/key/content objects), returning the result,
the store after the call, and the trace of SDK calls issued.
-/

namespace S3Lib

/-- Splits a character list at every occurrence of `sep`, mirroring Python
`str.split(sep)` for a one-character separator: the result of splitting the
empty text is one empty component, and n separators yield n+1 components. -/
def splitOnChar (sep : Char) : List Char → List (List Char)
  | [] => [[]]
  | x :: xs =>
    if x = sep then [] :: splitOnChar sep xs
    else
      match splitOnChar sep xs with
      | y :: ys => (x :: y) :: ys
      | [] => [[x]]

/-- Joins path parts with "/" at the character level (pathlib
`_format_parsed_parts` for a relative POSIX path). -/
def joinSlashCs : List String → List Char
  | [] => []
  | [s] => s.data
  | s :: rest => s.data ++ '/' :: joinSlashCs rest

/-- A path value is the pathlib-normalized list of its string parts. -/
abbrev Path := List String

/-- The POSIX rendering of a relative pathlib path: parts joined by "/", and
"." when there are no parts (pathlib `PurePath.__str__`). -/
def posixCs (p : Path) : List Char :=
  match p with
  | [] => ['.']
  | _ => joinSlashCs p

/-- pathlib argument parsing for the POSIX flavour (relative case), as used by
`S3Path.__new__` via `_from_parts`: split every argument on "/" and drop the
empty and "." components. -/
def mkPath (args : List String) : Path :=
  (args.flatMap (fun a => (splitOnChar '/' a.data).map String.mk)).filter
    (fun seg => !(seg == "") && !(seg == "."))

/-- `S3Path.bucket`: the text of `super().__str__()` before the first "/"
(Python `split("/", 1)[0]`). -/
def bucket (p : Path) : String :=
  String.mk ((posixCs p).takeWhile (fun c => !(c == '/')))

/-- Python `s.split(sep, 1)[1]` for `sep = "/"`: the characters after the first
"/" when one is present. -/
def afterFirstSlash (cs : List Char) : Option (List Char) :=
  match cs.dropWhile (fun c => !(c == '/')) with
  | [] => none
  | _ :: t => some t

/-- pathlib `name`: the last part, and "" for the empty path. -/
def nameOf (p : Path) : String := p.getLastD ""

/-- Index of the last "." in a name (Python `str.rfind(".")`), `none` when the
name has no dot. -/
def lastDotIdx (cs : List Char) : Option Nat :=
  match cs.reverse.findIdx? (fun c => c == '.') with
  | none => none
  | some j => some (cs.length - 1 - j)

/-- pathlib `suffix`: `name[i:]` where `i` is the index of the last dot, when
`0 < i < len(name) - 1`, and "" otherwise. -/
def suffix (p : Path) : String :=
  let cs := (nameOf p).data
  match lastDotIdx cs with
  | some i => if 0 < i ∧ i + 1 < cs.length then String.mk (cs.drop i) else ""
  | none => ""

/-- pathlib `stem`: `name[:i]` under the same last-dot condition as `suffix`,
and the whole name otherwise. -/
def stem (p : Path) : String :=
  let cs := (nameOf p).data
  match lastDotIdx cs with
  | some i => if 0 < i ∧ i + 1 < cs.length then String.mk (cs.take i) else String.mk cs
  | none => String.mk cs

/-- `S3Path.key`: the text after the first "/" of `super().__str__()` ("" when
there is no "/"), with "/" appended exactly when `suffix` is empty. -/
def key (p : Path) : String :=
  let raw : List Char :=
    match afterFirstSlash (posixCs p) with
    | some t => t
    | none => []
  if suffix p = "" then String.mk (raw ++ ['/']) else String.mk raw

/-- `S3Path.parent`: the path with its last part removed (pathlib `parent`). -/
def parent (p : Path) : Path := p.dropLast

/-- `S3Path.parents`: the ancestors from the immediate parent down to the empty
path (pathlib `parents`). -/
def parentsOf (p : Path) : List Path :=
  (List.range p.length).map (fun i => p.take (p.length - 1 - i))

/-- `S3Path.__str__`: the f-string `s3://` + `super().__str__()`, with every
backslash replaced by "/". -/
def s3str (p : Path) : String :=
  String.mk (("s3://".data ++ posixCs p).map (fun c => if c == '\\' then '/' else c))

/-- Python `str.startswith`, also the boto3 key-prefix match of `Prefix=`. -/
def strStartsWith (s pre : String) : Bool := pre.data.isPrefixOf s.data

/-- Python `sub in s` at the character level. -/
def strContains (s sub : String) : Bool := decide (sub.data <:+: s.data)

/-- Modelled from the spec: the repository renders paths as
`s3://bucket/key...` but ships no parser for these strings; the spec's
round-trip property re-parses the rendered string by stripping the URI scheme
and reconstructing a Path from the remainder. -/
def parseS3 (s : String) : Path :=
  if strStartsWith s "s3://" then mkPath [String.mk (s.data.drop 5)] else mkPath [s]

/-- A valid path segment: non-empty, not the "." component pathlib drops, and
free of the "/" separator and of "\x5c" (which `__str__` rewrites to "/"). -/
def validSeg (s : String) : Bool :=
  !(s == "") && !(s == ".") && s.data.all (fun c => !(c == '/') && !(c == '\\'))

/-- One stored object: bucket, key and content bytes. -/
structure S3Object where
  objBucket : String
  objKey : String
  objData : List Nat
deriving DecidableEq, Repr

/-- The object store: the flat list of its objects. -/
abbrev Store := List S3Object

/-- boto3 `bucket.objects.filter(Prefix=pfx)`: the keys in the bucket that
start with the prefix. -/
def listObjects (store : Store) (bkt pfx : String) : List String :=
  (store.filter (fun o => o.objBucket == bkt && strStartsWith o.objKey pfx)).map
    (fun o => o.objKey)

/-- `S3Path.iterdir`: one listing of the key prefix, each returned key wrapped
back into a path as `S3Path(self.bucket, obj.key)`. -/
def iterdir (store : Store) (p : Path) : List Path :=
  (listObjects store (bucket p) (key p)).map (fun k => mkPath [bucket p, k])

/-- `S3Path.rglob`: the source body is a verbatim duplicate of `iterdir`, the
`pattern` argument being unused (a TODO in the source). -/
def rglob (store : Store) (p : Path) (pat : Option String) : List Path :=
  (listObjects store (bucket p) (key p)).map (fun k => mkPath [bucket p, k])

/-- The SDK calls the adapter can issue. -/
inductive S3Event where
  | listObjectsCall (bkt pfx : String)
  | deleteCall (bkt pfx : String)
  | copyCall (srcBkt srcKey dstBkt dstKey : String)
deriving DecidableEq, Repr

/-- The error taxonomy of the spec: the source's failing `assert`s surface as
`preconditionFailed` / `invalidArgument`, an absent object as `notFound`. -/
inductive S3Err where
  | notFound
  | invalidArgument
  | preconditionFailed
deriving DecidableEq, Repr

/-- The single listing call one `iterdir` issues. -/
def iterdirEvents (p : Path) : List S3Event :=
  [S3Event.listObjectsCall (bucket p) (key p)]

/-- `S3Path.is_file` together with its SDK-call trace: `False` without any call
when the suffix is empty, else membership of `self` in
`self.parent.iterdir()`. -/
def is_fileT (store : Store) (p : Path) : Bool × List S3Event :=
  if suffix p = "" then (false, [])
  else (decide (p ∈ iterdir store (parent p)), iterdirEvents (parent p))

/-- `S3Path.exists` together with its SDK-call trace: membership of `self`
among the parents of the entries of `self.parent.iterdir()`. -/
def existsT (store : Store) (p : Path) : Bool × List S3Event :=
  (decide (∃ q ∈ iterdir store (parent p), p ∈ parentsOf q), iterdirEvents (parent p))

/-- boto3 `bucket.objects.filter(Prefix=pfx).delete()` applied to the store. -/
def deleteByPfx (store : Store) (bkt pfx : String) : Store :=
  store.filter (fun o => !(o.objBucket == bkt && strStartsWith o.objKey pfx))

/-- `S3Path.unlink`: assert `is_file()`, then batch-delete everything under the
key prefix. -/
def unlinkT (store : Store) (p : Path) : Except S3Err Unit × Store × List S3Event :=
  match is_fileT store p with
  | (true, ev) =>
    (Except.ok (), deleteByPfx store (bucket p) (key p),
      ev ++ [S3Event.deleteCall (bucket p) (key p)])
  | (false, ev) => (Except.error S3Err.preconditionFailed, store, ev)

/-- The `rmdir` precondition loop `for path in self.iterdir(): assert not
path.is_file()`, stopping at the first file; returns whether the scan passed
together with the listing calls the `is_file` checks issued. -/
def scanFiles (store : Store) : List Path → Bool × List S3Event
  | [] => (true, [])
  | q :: qs =>
    match is_fileT store q with
    | (true, ev) => (false, ev)
    | (false, ev) =>
      let r := scanFiles store qs
      (r.1, ev ++ r.2)

/-- `S3Path.rmdir(rm_files)`: assert the path is not a file; return when the
path does not exist; when `rm_files` is false, assert no entry of `iterdir()`
is a file; then batch-delete everything under the key prefix. -/
def rmdirT (store : Store) (p : Path) (rm_files : Bool) :
    Except S3Err Unit × Store × List S3Event :=
  match is_fileT store p with
  | (true, ev1) => (Except.error S3Err.preconditionFailed, store, ev1)
  | (false, ev1) =>
    match existsT store p with
    | (false, ev2) => (Except.ok (), store, ev1 ++ ev2)
    | (true, ev2) =>
      if rm_files then
        (Except.ok (), deleteByPfx store (bucket p) (key p),
          ev1 ++ ev2 ++ [S3Event.deleteCall (bucket p) (key p)])
      else
        match scanFiles store (iterdir store p) with
        | (false, ev3) =>
          (Except.error S3Err.preconditionFailed, store,
            ev1 ++ ev2 ++ iterdirEvents p ++ ev3)
        | (true, ev3) =>
          (Except.ok (), deleteByPfx store (bucket p) (key p),
            ev1 ++ ev2 ++ iterdirEvents p ++ ev3 ++
              [S3Event.deleteCall (bucket p) (key p)])

/-- Fueled scan for Python `str.replace`: left to right, replacing
non-overlapping occurrences of `old`; one unit of fuel is spent per position,
so fuel equal to the text length never runs out. -/
def replaceFuel (old new : List Char) : Nat → List Char → List Char
  | _, [] => []
  | 0, c :: cs => c :: cs
  | n + 1, c :: cs =>
    if old.isPrefixOf (c :: cs) then
      new ++ replaceFuel old new n (cs.drop (old.length - 1))
    else c :: replaceFuel old new n cs

/-- Python `s.replace(old, new)`, including the empty-`old` behaviour of
inserting `new` at every position of `s`. -/
def pyReplace (s old new : String) : String :=
  if old.data = [] then
    String.mk (new.data ++ s.data.flatMap (fun c => c :: new.data))
  else String.mk (replaceFuel old.data new.data s.data.length s.data)

/-- `S3Path.copy(dst)`: list the source prefix, skip every entry whose stem
starts with "_", and issue one server-side copy per remaining entry with
destination key `path.key.replace(self.key, dst.key)`. -/
def copyT (store : Store) (src dst : Path) : List S3Event :=
  S3Event.listObjectsCall (bucket src) (key src) ::
    (iterdir store src).flatMap (fun q =>
      if strStartsWith (stem q) "_" then []
      else [S3Event.copyCall (bucket q) (key q) (bucket dst)
        (pyReplace (key q) (key src) (key dst))])

/-- boto3 `get_object`: the content stored under `(bkt, k)`. -/
def getObject (store : Store) (bkt k : String) : Option (List Nat) :=
  match store.find? (fun o => o.objBucket == bkt && o.objKey == k) with
  | some o => some o.objData
  | none => none

/-- boto3 `upload_fileobj`: single-shot overwrite of the object at `(bkt, k)`. -/
def putObject (store : Store) (bkt k : String) (d : List Nat) : Store :=
  store.filter (fun o => !(o.objBucket == bkt && o.objKey == k)) ++
    [{ objBucket := bkt, objKey := k, objData := d }]

/-- UTF-8 encoding of one character, as `codecs.getwriter("utf-8")` performs. -/
def utf8CharBytes (c : Char) : List Nat :=
  let v := c.toNat
  if v < 128 then [v]
  else if v < 2048 then [192 + v / 64, 128 + v % 64]
  else if v < 65536 then [224 + v / 4096, 128 + v / 64 % 64, 128 + v % 64]
  else [240 + v / 262144, 128 + v / 4096 % 64, 128 + v / 64 % 64, 128 + v % 64]

/-- UTF-8 encoding of a text. -/
def utf8Bytes (s : String) : List Nat := s.data.flatMap utf8CharBytes

/-- `S3Path.open(mode)`: assert the mode is "rb", "w" or "wb"; "rb" yields the
object's bytes (`notFound` when absent); "wb" uploads on scope exit the bytes
the caller wrote into the in-memory buffer; "w" uploads the UTF-8 encoding of
the text the caller wrote.  The result pairs the bytes handed to the caller
with the store after the scope exits. -/
def openS3 (store : Store) (p : Path) (mode : String) (binData : List Nat)
    (textData : String) : Except S3Err (List Nat × Store) :=
  if ¬(mode = "rb" ∨ mode = "w" ∨ mode = "wb") then Except.error S3Err.invalidArgument
  else if mode = "rb" then
    match getObject store (bucket p) (key p) with
    | none => Except.error S3Err.notFound
    | some d => Except.ok (d, store)
  else if mode = "wb" then
    Except.ok ([], putObject store (bucket p) (key p) binData)
  else Except.ok ([], putObject store (bucket p) (key p) (utf8Bytes textData))

/-- Whether a trace contains a batch-delete call. -/
def hasDelete (evs : List S3Event) : Bool :=
  evs.any (fun e => match e with | S3Event.deleteCall _ _ => true | _ => false)

/-! ## Helper lemmas -/

theorem getObject_putObject (store : Store) (bkt k : String) (d : List Nat) :
    getObject (putObject store bkt k d) bkt k = some d := by
  unfold getObject putObject
  rw [List.find?_append]
  have h1 : (store.filter (fun o => !(o.objBucket == bkt && o.objKey == k))).find?
      (fun o => o.objBucket == bkt && o.objKey == k) = none := by
    rw [List.find?_eq_none]
    intro x hx
    have hm := List.mem_filter.mp hx
    have hm2 := hm.2
    simp at hm2 ⊢
    intro hb hk
    rcases hm2 with h | h
    · exact h hb
    · exact h hk
  rw [h1]
  simp

theorem is_fileT_snd (store : Store) (p : Path) :
    (is_fileT store p).2 = if suffix p = "" then [] else iterdirEvents (parent p) := by
  unfold is_fileT
  split <;> rfl

theorem hasDelete_append (a b : List S3Event) :
    hasDelete (a ++ b) = (hasDelete a || hasDelete b) := List.any_append

theorem hasDelete_is_fileT (store : Store) (p : Path) :
    hasDelete (is_fileT store p).2 = false := by
  rw [is_fileT_snd]
  split <;> rfl

theorem hasDelete_iterdirEvents (p : Path) : hasDelete (iterdirEvents p) = false := rfl

theorem hasDelete_existsT (store : Store) (p : Path) :
    hasDelete (existsT store p).2 = false := rfl

theorem scanFiles_fst (store : Store) (l : List Path) :
    (scanFiles store l).1 = l.all (fun q => !(is_fileT store q).1) := by
  induction l with
  | nil => rfl
  | cons q qs ih =>
    simp only [scanFiles, List.all_cons]
    rcases hq : is_fileT store q with ⟨b, ev⟩
    cases b <;> simp [hq, ih]

theorem hasDelete_scanFiles (store : Store) (l : List Path) :
    hasDelete (scanFiles store l).2 = false := by
  induction l with
  | nil => rfl
  | cons q qs ih =>
    simp only [scanFiles]
    rcases hq : is_fileT store q with ⟨b, ev⟩
    have hev : hasDelete ev = false := by
      have := hasDelete_is_fileT store q
      rwa [hq] at this
    cases b
    · simpa [hasDelete_append, hev] using ih
    · simpa using hev

theorem mem_deleteByPfx (store : Store) (bkt pfx : String) (o : S3Object) :
    o ∈ deleteByPfx store bkt pfx ↔
      o ∈ store ∧ ¬(o.objBucket = bkt ∧ strStartsWith o.objKey pfx = true) := by
  unfold deleteByPfx
  rw [List.mem_filter]
  constructor
  · rintro ⟨h1, h2⟩
    refine ⟨h1, ?_⟩
    rintro ⟨hb, hk⟩
    simp [hb, hk] at h2
  · rintro ⟨h1, h2⟩
    refine ⟨h1, ?_⟩
    simp only [Bool.not_eq_true']
    by_contra hne
    simp only [Bool.not_eq_false, Bool.and_eq_true, beq_iff_eq] at hne
    exact h2 ⟨hne.1, hne.2⟩

theorem splitOnChar_no_sep (sep : Char) (cs : List Char)
    (h : ∀ c ∈ cs, ¬c = sep) : splitOnChar sep cs = [cs] := by
  induction cs with
  | nil => rfl
  | cons x xs ih =>
    have hx : ¬x = sep := h x (List.mem_cons_self x xs)
    have ih2 := ih (fun c hc => h c (List.mem_cons_of_mem x hc))
    unfold splitOnChar
    rw [if_neg hx, ih2]

theorem splitOnChar_append (sep : Char) (xs zs : List Char)
    (h : ∀ c ∈ xs, ¬c = sep) :
    splitOnChar sep (xs ++ sep :: zs) = xs :: splitOnChar sep zs := by
  induction xs with
  | nil =>
    simp only [List.nil_append]
    conv_lhs => rw [splitOnChar]
    rw [if_pos rfl]
  | cons x xs ih =>
    have hx : ¬x = sep := h x (List.mem_cons_self x xs)
    have ih2 := ih (fun c hc => h c (List.mem_cons_of_mem x hc))
    have hcons : (x :: xs) ++ sep :: zs = x :: (xs ++ sep :: zs) := rfl
    rw [hcons]
    conv_lhs => rw [splitOnChar]
    rw [if_neg hx, ih2]

theorem takeWhile_append_all (p : Char → Bool) (xs ys : List Char)
    (h : ∀ c ∈ xs, p c = true) :
    (xs ++ ys).takeWhile p = xs ++ ys.takeWhile p := by
  induction xs with
  | nil => rfl
  | cons x xs ih =>
    have hx := h x (List.mem_cons_self x xs)
    have ih2 := ih (fun c hc => h c (List.mem_cons_of_mem x hc))
    simp [List.takeWhile_cons, hx, ih2]

theorem dropWhile_append_all (p : Char → Bool) (xs ys : List Char)
    (h : ∀ c ∈ xs, p c = true) :
    (xs ++ ys).dropWhile p = ys.dropWhile p := by
  induction xs with
  | nil => rfl
  | cons x xs ih =>
    have hx := h x (List.mem_cons_self x xs)
    have ih2 := ih (fun c hc => h c (List.mem_cons_of_mem x hc))
    simp [List.dropWhile_cons, hx, ih2]

theorem validSeg_spec (s : String) (h : validSeg s = true) :
    ¬s = "" ∧ ¬s = "." ∧ ∀ c ∈ s.data, ¬c = '/' ∧ ¬c = '\\' := by
  unfold validSeg at h
  simp only [Bool.and_eq_true, Bool.not_eq_true', beq_eq_false_iff_ne, ne_eq,
    List.all_eq_true] at h
  refine ⟨h.1.1, h.1.2, fun c hc => ?_⟩
  have := h.2 c hc
  simp only [Bool.and_eq_true, Bool.not_eq_true', beq_eq_false_iff_ne, ne_eq] at this
  exact this

theorem mk_data (s : String) : String.mk s.data = s := rfl

theorem data_ne_nil (s : String) (h : ¬s = "") : s.data ≠ [] := by
  intro hd
  apply h
  cases s
  simp at hd
  rw [hd]

theorem filter_valid_id (s : List String) (h : ∀ seg ∈ s, validSeg seg = true) :
    s.filter (fun seg => !(seg == "") && !(seg == ".")) = s := by
  induction s with
  | nil => rfl
  | cons a t ih =>
    have ha := validSeg_spec a (h a (List.mem_cons_self a t))
    have iht := ih (fun seg hs => h seg (List.mem_cons_of_mem a hs))
    rw [List.filter_cons, if_pos, iht]
    simp only [Bool.and_eq_true, Bool.not_eq_true', beq_eq_false_iff_ne, ne_eq]
    exact ⟨ha.1, ha.2.1⟩

theorem mkPath_valid (s : List String) (h : ∀ seg ∈ s, validSeg seg = true) :
    mkPath s = s := by
  unfold mkPath
  have hflat : s.flatMap (fun a => (splitOnChar '/' a.data).map String.mk) = s := by
    induction s with
    | nil => rfl
    | cons a t ih =>
      have ha := validSeg_spec a (h a (List.mem_cons_self a t))
      have iht := ih (fun seg hs => h seg (List.mem_cons_of_mem a hs))
      rw [List.flatMap_cons, iht,
        splitOnChar_no_sep '/' a.data (fun c hc => (ha.2.2 c hc).1)]
      rfl
  rw [hflat]
  exact filter_valid_id s h

theorem joinSlashCs_cons₂ (a b : String) (t : List String) :
    joinSlashCs (a :: b :: t) = a.data ++ '/' :: joinSlashCs (b :: t) := rfl

theorem mem_joinSlashCs (s : List String) (c : Char) (hc : c ∈ joinSlashCs s) :
    c = '/' ∨ ∃ seg ∈ s, c ∈ seg.data := by
  induction s with
  | nil => cases hc
  | cons a t ih =>
    cases t with
    | nil =>
      right
      exact ⟨a, List.mem_cons_self a [], hc⟩
    | cons b t' =>
      rw [joinSlashCs_cons₂] at hc
      rcases List.mem_append.mp hc with h | h
      · right
        exact ⟨a, List.mem_cons_self a _, h⟩
      · rcases List.mem_cons.mp h with h | h
        · left
          exact h
        · rcases ih h with h | ⟨seg, hs, hcs⟩
          · left
            exact h
          · right
            exact ⟨seg, List.mem_cons_of_mem a hs, hcs⟩

theorem joinSlashCs_ne_nil (a : String) (t : List String)
    (ha : ¬a = "") : joinSlashCs (a :: t) ≠ [] := by
  cases t with
  | nil =>
    exact data_ne_nil a ha
  | cons b t' =>
    rw [joinSlashCs_cons₂]
    intro hcontra
    rcases List.append_eq_nil.mp hcontra with ⟨_, h2⟩
    cases h2

theorem splitOnChar_joinSlashCs (s : List String) (hne : s ≠ [])
    (h : ∀ seg ∈ s, validSeg seg = true) :
    (splitOnChar '/' (joinSlashCs s)).map String.mk = s := by
  induction s with
  | nil => exact absurd rfl hne
  | cons a t ih =>
    have ha := validSeg_spec a (h a (List.mem_cons_self a t))
    cases t with
    | nil =>
      show (splitOnChar '/' a.data).map String.mk = [a]
      rw [splitOnChar_no_sep '/' a.data (fun c hc => (ha.2.2 c hc).1)]
      rfl
    | cons b t' =>
      have iht := ih (List.cons_ne_nil b t')
        (fun seg hs => h seg (List.mem_cons_of_mem a hs))
      rw [joinSlashCs_cons₂,
        splitOnChar_append '/' a.data (joinSlashCs (b :: t'))
          (fun c hc => (ha.2.2 c hc).1),
        List.map_cons, iht]

theorem bucket_valid (a : String) (t : List String) (ha : validSeg a = true) :
    bucket (a :: t) = a := by
  have has := validSeg_spec a ha
  have hnosl : ∀ c ∈ a.data, (fun c => !(c == '/')) c = true := by
    intro c hc
    simp only [Bool.not_eq_true', beq_eq_false_iff_ne, ne_eq]
    exact (has.2.2 c hc).1
  unfold bucket posixCs
  cases t with
  | nil =>
    show String.mk (List.takeWhile _ a.data) = a
    rw [List.takeWhile_eq_self_iff.mpr hnosl]
  | cons b t' =>
    show String.mk (List.takeWhile _ (a.data ++ '/' :: joinSlashCs (b :: t'))) = a
    rw [takeWhile_append_all _ a.data _ hnosl]
    simp [List.takeWhile_cons]

theorem afterFirstSlash_posix (a : String) (t : List String)
    (ha : validSeg a = true) :
    afterFirstSlash (posixCs (a :: t)) =
      match t with
      | [] => none
      | _ :: _ => some (joinSlashCs t) := by
  have has := validSeg_spec a ha
  have hnosl : ∀ c ∈ a.data, (fun c => !(c == '/')) c = true := by
    intro c hc
    simp only [Bool.not_eq_true', beq_eq_false_iff_ne, ne_eq]
    exact (has.2.2 c hc).1
  unfold afterFirstSlash posixCs
  cases t with
  | nil =>
    show (match a.data.dropWhile _ with | [] => none | _ :: t => some t) = none
    rw [List.dropWhile_eq_nil_iff.mpr (fun c hc => hnosl c hc)]
  | cons b t' =>
    show (match List.dropWhile _ (a.data ++ '/' :: joinSlashCs (b :: t')) with
      | [] => none | _ :: t => some t) = some (joinSlashCs (b :: t'))
    rw [dropWhile_append_all _ a.data _ hnosl]
    simp [List.dropWhile_cons]

theorem key_valid (a : String) (t : List String)
    (h : ∀ seg ∈ a :: t, validSeg seg = true) :
    key (a :: t) =
      String.mk (joinSlashCs t ++ if suffix (a :: t) = "" then ['/'] else []) := by
  have ha := h a (List.mem_cons_self a t)
  simp only [key, afterFirstSlash_posix a t ha]
  cases t with
  | nil =>
    by_cases hs : suffix [a] = ""
    · rw [if_pos hs, if_pos hs]
      rfl
    · rw [if_neg hs, if_neg hs]
      rfl
  | cons b t' =>
    by_cases hs : suffix (a :: b :: t') = ""
    · rw [if_pos hs, if_pos hs]
    · rw [if_neg hs, if_neg hs]
      rw [List.append_nil]

/-! ## Claim theorems -/

/-- C9: for every store, path and pattern argument, `rglob(pattern)` yields
exactly the same sequence of Paths as `iterdir()` - the pattern is ignored and
the two operations are behaviourally identical. -/
theorem rglob_eq_iterdir (store : Store) (p : Path) (pat : Option String) :
    rglob store p pat = iterdir store p := rfl

/-- C10: `is_file()` being true does not imply `exists()` is true: with the
store holding exactly one object, at key "a/x.txt" of bucket "b", the suffixed
path b/a/x.txt satisfies `is_file` yet `exists` returns false, because
`exists` only recognizes proper ancestors of the objects listed under the
parent prefix, never a listed object itself. -/
theorem is_file_without_exists :
    suffix (mkPath ["b", "a", "x.txt"]) ≠ ""
    ∧ (is_fileT [⟨"b", "a/x.txt", []⟩] (mkPath ["b", "a", "x.txt"])).1 = true
    ∧ (existsT [⟨"b", "a/x.txt", []⟩] (mkPath ["b", "a", "x.txt"])).1 = false := by
  refine ⟨by decide, rfl, rfl⟩

/-- C7: `open(mode)` fails with InvalidArgument for every mode other than
"rb", "w" and "wb"; and `open("rb")` on an absent object fails with
NotFound. -/
theorem open_mode_errors (store : Store) (p : Path) (mode : String)
    (binData : List Nat) (textData : String) :
    (mode ≠ "rb" → mode ≠ "w" → mode ≠ "wb" →
      openS3 store p mode binData textData = Except.error S3Err.invalidArgument)
    ∧ (getObject store (bucket p) (key p) = none →
      openS3 store p "rb" binData textData = Except.error S3Err.notFound) := by
  constructor
  · intro h1 h2 h3
    simp [openS3, h1, h2, h3]
  · intro h
    simp [openS3, h]

/-- Closed witness for C7: mode "r+" is rejected with InvalidArgument and a
read of an absent object reports NotFound. -/
theorem open_mode_errors_witness :
    openS3 [] (mkPath ["b", "x.txt"]) "r+" [] "" = Except.error S3Err.invalidArgument
    ∧ openS3 [] (mkPath ["b", "x.txt"]) "rb" [] "" = Except.error S3Err.notFound := by
  have h := open_mode_errors [] (mkPath ["b", "x.txt"]) "r+" [] ""
  exact ⟨h.1 (by decide) (by decide) (by decide), h.2 rfl⟩

/-- C8: writing bytes through open("wb") - which uploads the buffer's full
contents on scope exit - and then reading the same path through open("rb")
returns exactly the written bytes, for every store, path and byte list. -/
theorem write_read_roundtrip (store : Store) (p : Path) (b : List Nat) :
    ∃ store', openS3 store p "wb" b "" = Except.ok ([], store')
      ∧ openS3 store' p "rb" [] "" = Except.ok (b, store') := by
  refine ⟨putObject store (bucket p) (key p) b, by simp [openS3], ?_⟩
  simp [openS3, getObject_putObject]

/-- C4 counterexample: on the empty store and the suffixed path b/a/x.txt,
`is_file()` is false and `unlink()` raises, but its trace is a non-empty list
holding the listing call the `is_file` check issued - refuting "performs no
call to the store (no listing ... is issued)". -/
theorem unlink_lists_before_raising :
    (is_fileT ([] : Store) (mkPath ["b", "a", "x.txt"])).1 = false
    ∧ (unlinkT ([] : Store) (mkPath ["b", "a", "x.txt"])).2.2
        = [S3Event.listObjectsCall "b" "a/"]
    ∧ ([S3Event.listObjectsCall "b" "a/"] : List S3Event) ≠ ([] : List S3Event) :=
  ⟨rfl, rfl, by decide⟩

/-- C4 (amended): on every path whose `is_file()` is false, `unlink()` raises
PreconditionFailed, deletes nothing (the store is unchanged and no delete call
is issued); the trace is empty - no store contact at all - whenever the path
has no suffix, while a suffixed path incurs the one listing call of the
`is_file` check. -/
theorem unlink_guard (store : Store) (p : Path)
    (h : (is_fileT store p).1 = false) :
    (unlinkT store p).1 = Except.error S3Err.preconditionFailed
    ∧ (unlinkT store p).2.1 = store
    ∧ hasDelete (unlinkT store p).2.2 = false
    ∧ (suffix p = "" → (unlinkT store p).2.2 = []) := by
  rcases hfe : is_fileT store p with ⟨b, ev⟩
  rw [hfe] at h
  simp only at h
  subst h
  have hev : ev = if suffix p = "" then [] else iterdirEvents (parent p) := by
    have := is_fileT_snd store p
    rwa [hfe] at this
  have heq : unlinkT store p = (Except.error S3Err.preconditionFailed, store, ev) := by
    unfold unlinkT
    rw [hfe]
  rw [heq]
  refine ⟨rfl, rfl, ?_, ?_⟩
  · rw [hev]
    split <;> rfl
  · intro hs
    rw [hev, if_pos hs]

/-- Closed witness for C4: the suffix-less path b/dir on the empty store. -/
theorem unlink_guard_witness :
    (unlinkT ([] : Store) (mkPath ["b", "dir"])).1 = Except.error S3Err.preconditionFailed
    ∧ (unlinkT ([] : Store) (mkPath ["b", "dir"])).2.2 = [] := by
  have h := unlink_guard ([] : Store) (mkPath ["b", "dir"]) rfl
  exact ⟨h.1, h.2.2.2 rfl⟩

/-- C5: for a directory-like path (`is_file()` false): (a) when the path
exists and some entry of `iterdir()` is a file, `rmdir(remove_contents=False)`
raises PreconditionFailed with the store unchanged and no delete call issued
(the precondition scan runs before any delete); (b) when the path exists,
`rmdir(remove_contents=True)` succeeds and the resulting store holds exactly
the objects not under the bucket/key prefix; (c) when the path does not
exist, `rmdir` is a no-op for either flag: it succeeds, leaves the store
unchanged and issues no delete. -/
theorem rmdir_spec (store : Store) (p : Path)
    (hdir : (is_fileT store p).1 = false) :
    ((existsT store p).1 = true →
      (∃ q ∈ iterdir store p, (is_fileT store q).1 = true) →
        (rmdirT store p false).1 = Except.error S3Err.preconditionFailed
        ∧ (rmdirT store p false).2.1 = store
        ∧ hasDelete (rmdirT store p false).2.2 = false)
    ∧ ((existsT store p).1 = true →
        (rmdirT store p true).1 = Except.ok ()
        ∧ ∀ o : S3Object, o ∈ (rmdirT store p true).2.1 ↔
            o ∈ store ∧ ¬(o.objBucket = bucket p ∧ strStartsWith o.objKey (key p) = true))
    ∧ ((existsT store p).1 = false → ∀ rf : Bool,
        (rmdirT store p rf).1 = Except.ok ()
        ∧ (rmdirT store p rf).2.1 = store
        ∧ hasDelete (rmdirT store p rf).2.2 = false) := by
  rcases hfe : is_fileT store p with ⟨b, ev1⟩
  rw [hfe] at hdir
  simp only at hdir
  subst hdir
  have hev1 : hasDelete ev1 = false := by
    have := hasDelete_is_fileT store p
    rwa [hfe] at this
  rcases hex : existsT store p with ⟨ex, ev2⟩
  have hev2 : hasDelete ev2 = false := by
    have := hasDelete_existsT store p
    rwa [hex] at this
  refine ⟨?_, ?_, ?_⟩
  · intro hT hfile
    simp only at hT
    subst hT
    rcases hscan : scanFiles store (iterdir store p) with ⟨sf, ev3⟩
    have hsf : sf = false := by
      have := scanFiles_fst store (iterdir store p)
      rw [hscan] at this
      simp only at this
      rcases hfile with ⟨q, hq, hqf⟩
      rw [this, List.all_eq_false]
      exact ⟨q, hq, by simp [hqf]⟩
    subst hsf
    have hev3 : hasDelete ev3 = false := by
      have := hasDelete_scanFiles store (iterdir store p)
      rwa [hscan] at this
    have heq : rmdirT store p false =
        (Except.error S3Err.preconditionFailed, store,
          ev1 ++ ev2 ++ iterdirEvents p ++ ev3) := by
      unfold rmdirT
      rw [hfe, hex]
      simp only [Bool.false_eq_true, if_false]
      rw [hscan]
    rw [heq]
    refine ⟨rfl, rfl, ?_⟩
    simp [hasDelete_append, hev1, hev2, hev3, hasDelete_iterdirEvents]
  · intro hT
    simp only at hT
    subst hT
    have heq : rmdirT store p true =
        (Except.ok (), deleteByPfx store (bucket p) (key p),
          ev1 ++ ev2 ++ [S3Event.deleteCall (bucket p) (key p)]) := by
      unfold rmdirT
      rw [hfe, hex]
      simp
    rw [heq]
    exact ⟨rfl, fun o => mem_deleteByPfx store (bucket p) (key p) o⟩
  · intro hT rf
    simp only at hT
    subst hT
    have heq : rmdirT store p rf = (Except.ok (), store, ev1 ++ ev2) := by
      unfold rmdirT
      rw [hfe, hex]
    rw [heq]
    exact ⟨rfl, rfl, by simp [hasDelete_append, hev1, hev2]⟩

/-- Closed witness for C5: bucket b with the single object a/dir/f.txt; the
path b/a/dir is directory-like and exists, its listing contains the file
b/a/dir/f.txt, so `rmdir(False)` raises while `rmdir(True)` succeeds and
empties the prefix. -/
theorem rmdir_spec_witness :
    (rmdirT [⟨"b", "a/dir/f.txt", []⟩] (mkPath ["b", "a", "dir"]) false).1
      = Except.error S3Err.preconditionFailed
    ∧ (rmdirT [⟨"b", "a/dir/f.txt", []⟩] (mkPath ["b", "a", "dir"]) true).1
      = Except.ok () := by
  have h := rmdir_spec [⟨"b", "a/dir/f.txt", []⟩] (mkPath ["b", "a", "dir"]) rfl
  refine ⟨(h.1 rfl ⟨mkPath ["b", "a", "dir", "f.txt"], by decide, rfl⟩).1, (h.2.1 rfl).1⟩

/-- C2: for every valid non-empty segment sequence, the `bucket` accessor
returns the first segment and the `key` accessor returns the remaining
segments joined by "/", with a trailing "/" appended exactly when the path has
no file-extension-like suffix.  Both accessors are pure total functions of the
segment sequence: no I/O is modelled and no failure is possible. -/
theorem bucket_key_accessors (a : String) (t : List String)
    (h : ∀ seg ∈ a :: t, validSeg seg = true) :
    bucket (mkPath (a :: t)) = a
    ∧ key (mkPath (a :: t)) =
        String.mk (joinSlashCs t ++ if suffix (a :: t) = "" then ['/'] else []) := by
  rw [mkPath_valid (a :: t) h]
  exact ⟨bucket_valid a t (h a (List.mem_cons_self a t)), key_valid a t h⟩

/-- Closed witness for C2: the spec's own examples. -/
theorem bucket_key_accessors_witness :
    bucket (mkPath ["bucket", "a", "b.txt"]) = "bucket"
    ∧ key (mkPath ["bucket", "a", "b.txt"]) = "a/b.txt"
    ∧ key (mkPath ["bucket", "a"]) = "a/" := by
  have h1 := bucket_key_accessors "bucket" ["a", "b.txt"] (by decide)
  have h2 := bucket_key_accessors "bucket" ["a"] (by decide)
  exact ⟨h1.1, h1.2.trans (by decide), h2.2.trans (by decide)⟩

/-- C3 counterexample: at the suffix-less bucket root the key accessor yields
"/", not the empty string the claim asserts. -/
theorem key_at_bucket_root :
    key (mkPath ["bucket"]) = "/" ∧ ("/" : String) ≠ "" := ⟨rfl, by decide⟩

/-- C3 (amended): for every valid non-empty segment sequence, the derived key
is the empty string only at bucket root, and there exactly when the single
bucket segment has a file-extension-like suffix (at a suffix-less bucket root
the key is "/"); at every deeper path the key is non-empty. -/
theorem key_empty_iff (a : String) (t : List String)
    (h : ∀ seg ∈ a :: t, validSeg seg = true) :
    (key (mkPath (a :: t)) = "" ↔ t = [] ∧ suffix (a :: t) ≠ "")
    ∧ (t ≠ [] → key (mkPath (a :: t)) ≠ "") := by
  rw [mkPath_valid (a :: t) h, key_valid a t h]
  have hmk : ∀ l : List Char, String.mk l = "" → l = [] := by
    intro l hl
    have hd := congrArg String.data hl
    simpa using hd
  have hjoin : t ≠ [] → joinSlashCs t ≠ [] := by
    intro ht
    cases t with
    | nil => exact absurd rfl ht
    | cons b t' =>
      have hb := (validSeg_spec b
        (h b (List.mem_cons_of_mem a (List.mem_cons_self b t')))).1
      exact joinSlashCs_ne_nil b t' hb
  constructor
  · constructor
    · intro hk
      have hl := hmk _ hk
      rcases List.append_eq_nil.mp hl with ⟨h1, h2⟩
      refine ⟨?_, ?_⟩
      · by_contra ht
        exact hjoin ht h1
      · intro hs
        rw [if_pos hs] at h2
        cases h2
    · rintro ⟨ht, hs⟩
      subst ht
      rw [if_neg hs]
      rfl
  · intro ht hk
    have hl := hmk _ hk
    rcases List.append_eq_nil.mp hl with ⟨h1, _⟩
    exact hjoin ht h1

/-- Closed witness for C3: the key is empty at a bucket root whose segment has
a suffix, and non-empty one level below a bucket. -/
theorem key_empty_iff_witness :
    key (mkPath ["data.db"]) = "" ∧ key (mkPath ["bucket", "a"]) ≠ "" := by
  have h1 := key_empty_iff "data.db" ([] : List String) (by decide)
  have h2 := key_empty_iff "bucket" ["a"] (by decide)
  exact ⟨h1.1.mpr ⟨rfl, by decide⟩, h2.2 (by decide)⟩

theorem map_noBackslash (cs : List Char) (h : ∀ c ∈ cs, ¬c = '\\') :
    cs.map (fun c => if c == '\\' then '/' else c) = cs := by
  induction cs with
  | nil => rfl
  | cons x xs ih =>
    have hx := h x (List.mem_cons_self x xs)
    rw [List.map_cons, ih (fun c hc => h c (List.mem_cons_of_mem x hc))]
    congr 1
    simp [beq_iff_eq, hx]

/-- C1: for every valid non-empty segment sequence s, re-parsing the rendered
string representation of Path(s) and reconstructing a Path yields a Path equal
to Path(s): parse(str(Path(s))) == Path(s). -/
theorem parse_str_roundtrip (s : List String) (hne : s ≠ [])
    (h : ∀ seg ∈ s, validSeg seg = true) :
    parseS3 (s3str (mkPath s)) = mkPath s := by
  rw [mkPath_valid s h]
  have hjc : ∀ c ∈ joinSlashCs s, ¬c = '\\' := by
    intro c hc
    rcases mem_joinSlashCs s c hc with h1 | ⟨seg, hsg, hcs⟩
    · rw [h1]
      decide
    · exact ((validSeg_spec seg (h seg hsg)).2.2 c hcs).2
  have hpos : posixCs s = joinSlashCs s := by
    cases s with
    | nil => exact absurd rfl hne
    | cons a t => rfl
  have hstr : s3str s = String.mk ("s3://".data ++ joinSlashCs s) := by
    unfold s3str
    rw [hpos, List.map_append, map_noBackslash _ hjc]
    congr 1
  rw [hstr]
  have hcond : strStartsWith (String.mk ("s3://".data ++ joinSlashCs s)) "s3://" = true := by
    unfold strStartsWith
    rw [List.isPrefixOf_iff_prefix]
    exact List.prefix_append _ _
  unfold parseS3
  rw [if_pos hcond]
  have hdrop : (String.mk ("s3://".data ++ joinSlashCs s)).data.drop 5 = joinSlashCs s := by
    show ("s3://".data ++ joinSlashCs s).drop 5 = joinSlashCs s
    have h5 : ("s3://".data).length = 5 := by decide
    rw [← h5, List.drop_left]
  rw [hdrop]
  unfold mkPath
  have hflat : [String.mk (joinSlashCs s)].flatMap
      (fun a => (splitOnChar '/' a.data).map String.mk)
      = (splitOnChar '/' (joinSlashCs s)).map String.mk := by
    simp [List.flatMap_cons]
  rw [hflat, splitOnChar_joinSlashCs s hne h, filter_valid_id s h]

/-- Closed witness for C1: the round trip at the path bucket/a/b.txt. -/
theorem parse_str_roundtrip_witness :
    parseS3 (s3str (mkPath ["bucket", "a", "b.txt"])) = mkPath ["bucket", "a", "b.txt"] :=
  parse_str_roundtrip ["bucket", "a", "b.txt"] (by decide) (by decide)

theorem replaceFuel_no_occurrence (old new : List Char) (hold : old ≠ []) :
    ∀ fuel cs, ¬(old <:+: cs) → replaceFuel old new fuel cs = cs := by
  intro fuel
  induction fuel with
  | zero =>
    intro cs _
    cases cs <;> rfl
  | succ n ih =>
    intro cs h
    cases cs with
    | nil => rfl
    | cons c cs' =>
      have hpre : ¬(old.isPrefixOf (c :: cs') = true) := by
        intro hcontra
        exact h (List.isPrefixOf_iff_prefix.mp hcontra).isInfix
      have hcs' : ¬(old <:+: cs') := fun hi => h (List.infix_cons hi)
      unfold replaceFuel
      rw [if_neg hpre, ih cs' hcs']

theorem replaceFuel_atFront (old new r : List Char) (hold : old ≠ [])
    (hnor : ¬(old <:+: r)) :
    replaceFuel old new (old ++ r).length (old ++ r) = new ++ r := by
  cases old with
  | nil => exact absurd rfl hold
  | cons o ot =>
    have hsplit : (o :: ot) ++ r = o :: (ot ++ r) := rfl
    have hlen : (o :: (ot ++ r)).length = (ot ++ r).length + 1 := by simp
    rw [hsplit, hlen]
    have hpre : (o :: ot).isPrefixOf (o :: (ot ++ r)) = true := by
      rw [List.isPrefixOf_iff_prefix]
      exact List.prefix_append (o :: ot) r
    unfold replaceFuel
    rw [if_pos hpre]
    congr 1
    have hdrop : (ot ++ r).drop ((o :: ot).length - 1) = r := by
      have : (o :: ot).length - 1 = ot.length := by simp
      rw [this, List.drop_left]
    rw [hdrop]
    exact replaceFuel_no_occurrence (o :: ot) new hold _ r hnor

theorem pyReplace_prefix_only (kq ks kd r : String)
    (hk : kq.data = ks.data ++ r.data) (hks : ¬ks = "")
    (hni : strContains r ks = false) :
    pyReplace kq ks kd = String.mk (kd.data ++ r.data) := by
  unfold pyReplace
  rw [if_neg (data_ne_nil ks hks)]
  have hnor : ¬(ks.data <:+: r.data) := by
    intro hi
    rw [show strContains r ks = decide (ks.data <:+: r.data) from rfl,
      decide_eq_true hi] at hni
    cases hni
  rw [hk]
  rw [replaceFuel_atFront ks.data kd.data r.data (data_ne_nil ks hks) hnor]

theorem copyT_eq_filter_map (store : Store) (src dst : Path) :
    copyT store src dst =
      S3Event.listObjectsCall (bucket src) (key src) ::
        ((iterdir store src).filter (fun q => !(strStartsWith (stem q) "_"))).map
          (fun q => S3Event.copyCall (bucket q) (key q) (bucket dst)
            (pyReplace (key q) (key src) (key dst))) := by
  unfold copyT
  congr 1
  induction iterdir store src with
  | nil => rfl
  | cons q qs ih =>
    rw [List.flatMap_cons, List.filter_cons]
    by_cases hq : strStartsWith (stem q) "_" = true
    · rw [if_pos hq, ih]
      simp [hq]
    · rw [if_neg hq, ih]
      simp only [Bool.not_eq_true] at hq
      simp [hq]

/-- C6 (amended): copy enumerates the entries of iterdir(), skips every entry
whose last segment's stem starts with "_", and issues exactly one server-side
copy per remaining entry; the destination key is the entry's key with every
occurrence of the source key replaced by the destination key (Python
`str.replace`), which coincides with replacing only the leading source-key
prefix whenever the source key does not occur again in the rest of the
entry's key. -/
theorem copy_spec (store : Store) (src dst : Path) :
    (copyT store src dst =
      S3Event.listObjectsCall (bucket src) (key src) ::
        ((iterdir store src).filter (fun q => !(strStartsWith (stem q) "_"))).map
          (fun q => S3Event.copyCall (bucket q) (key q) (bucket dst)
            (pyReplace (key q) (key src) (key dst))))
    ∧ (∀ kq r : String, kq.data = (key src).data ++ r.data → ¬key src = "" →
        strContains r (key src) = false →
        pyReplace kq (key src) (key dst) = String.mk ((key dst).data ++ r.data)) :=
  ⟨copyT_eq_filter_map store src dst,
   fun kq r hk hks hni => pyReplace_prefix_only kq (key src) (key dst) r hk hks hni⟩

/-- Closed witness for C6: with children _hidden.txt and visible.txt under
b/dir, only visible.txt is copied, to the destination prefix. -/
theorem copy_spec_witness :
    copyT [⟨"b", "dir/_hidden.txt", []⟩, ⟨"b", "dir/visible.txt", []⟩]
        (mkPath ["b", "dir"]) (mkPath ["b", "dst"])
      = [S3Event.listObjectsCall "b" "dir/",
         S3Event.copyCall "b" "dir/visible.txt" "b" "dst/visible.txt"]
    ∧ pyReplace "dir/visible.txt" (key (mkPath ["b", "dir"])) (key (mkPath ["b", "dst"]))
      = "dst/visible.txt" := by
  have h := copy_spec [⟨"b", "dir/_hidden.txt", []⟩, ⟨"b", "dir/visible.txt", []⟩]
    (mkPath ["b", "dir"]) (mkPath ["b", "dst"])
  refine ⟨h.1.trans (by decide), ?_⟩
  have h2 := h.2 "dir/visible.txt" "visible.txt" (by decide) (by decide) (by decide)
  exact h2.trans (by decide)

/-- C6 counterexample: with the single object a/a/x.txt under source prefix
a/, the issued destination key is d/d/x.txt - every occurrence of the source
key is rewritten - and not d/a/x.txt, the entry's key with only the leading
source-key prefix replaced. -/
theorem copy_rewrites_inner_occurrences :
    copyT [⟨"b", "a/a/x.txt", []⟩] (mkPath ["b", "a"]) (mkPath ["b", "d"])
      = [S3Event.listObjectsCall "b" "a/",
         S3Event.copyCall "b" "a/a/x.txt" "b" "d/d/x.txt"]
    ∧ ("d/d/x.txt" : String) ≠ String.mk ("d/".data ++ "a/x.txt".data) :=
  ⟨by decide, by decide⟩

end S3Lib
